import Mathlib

/-!
Verification of the numeric ML-pipeline core (`mlUtils`): feature scalers,
train/test splitter, logistic-regression and decision-tree trainers and
predictors, and the evaluation metrics.

Shallow embedding conventions:
* JS `number[][]` matrices become `List (List ℚ)` (or `List (List ℝ)` where
  the source computes square roots or exponentials); label vectors become
  `List ℕ` (the pipeline feeds integer class labels; JS object keys built
  from non-negative integers are iterated in ascending numeric order, which
  the embedding of `Object.entries` relies on).
* Exact rational/real arithmetic stands in for IEEE doubles (the usual
  idealization: float rounding and associativity of `reduce` sums are not
  modelled).  The one IEEE artifact the source can actually produce on the
  inputs the claims speak about — `0/0 = NaN` in the logistic-regression
  bias update — is modelled exactly by the `JReal` type below.
* A thrown JS exception (the `reduce` of an empty array in the decision
  tree's majority vote) is modelled by `Option`: `none` = exception.
* `row[j]` reads are embedded as `List.getD`; every claim constrains inputs
  (rectangularity, index alignment) so that the default is never read.
-/

/-- JS `Array.prototype.slice` index clamping: negative indices count from
the end, and indices are clamped into `[0, n]`. -/
def jsClampIndex (n : ℕ) (i : ℤ) : ℕ :=
  if i < 0 then (n + i).toNat else min i.toNat n

/-- JS `l.slice(s, e)`: the elements from clamped `s` (inclusive) to clamped
`e` (exclusive). -/
def jsSlice {α : Type} (l : List α) (s e : ℤ) : List α :=
  (l.take (jsClampIndex l.length e)).drop (jsClampIndex l.length s)

/-- JS `l.slice(s)` (one-argument form): from clamped `s` to the end. -/
def jsSliceFrom {α : Type} (l : List α) (s : ℤ) : List α :=
  l.drop (jsClampIndex l.length s)

/-- JS `[...new Set(l)].sort((a, b) => a - b)`: the distinct elements of `l`
in ascending order. -/
def sortedDistinct {α : Type} [LinearOrder α] (l : List α) : List α :=
  l.dedup.insertionSort (· ≤ ·)

/-- Cell `M[i][j]` of a matrix, with an explicit default for the (never
exercised) out-of-range case. -/
def cellOf {α : Type} (M : List (List α)) (d : α) (i j : ℕ) : α :=
  (M.getD i []).getD j d

/-- All rows have the feature count of the first row (the data-model
invariant every stage of the pipeline maintains). -/
def Rectangular {α : Type} (X : List (List α)) : Prop :=
  ∀ row ∈ X, row.length = (X.headD []).length

/-- Column `j` of a matrix: `data.map(row => row[j])`. -/
def columnVals {α : Type} (d : α) (X : List (List α)) (j : ℕ) : List α :=
  X.map (fun r => r.getD j d)

/-! ### Scalers (source: `standardScaler`, `minMaxScaler`) -/

/-- Column mean: `column.reduce((a, b) => a + b, 0) / column.length`. -/
noncomputable def colMean (X : List (List ℝ)) (j : ℕ) : ℝ :=
  (columnVals 0 X j).sum / (columnVals 0 X j).length

/-- Population variance of column `j`:
`column.reduce((s, v) => s + (v - mean)^2, 0) / column.length`. -/
noncomputable def colVariance (X : List (List ℝ)) (j : ℕ) : ℝ :=
  ((columnVals 0 X j).map (fun v => (v - colMean X j) ^ 2)).sum /
    (columnVals 0 X j).length

/-- Source `Math.sqrt(variance) || 1`: the standard deviation, with `1` substituted
when it is zero (the variance is non-negative, so the JS `||` fallback fires
exactly on a zero square root). -/
noncomputable def colStd (X : List (List ℝ)) (j : ℕ) : ℝ :=
  if Real.sqrt (colVariance X j) = 0 then 1 else Real.sqrt (colVariance X j)

/-- Source `standardScaler`: empty input is returned unchanged; otherwise every cell
becomes `(value - means[j]) / stds[j]`.  The source materializes the arrays
`means` and `stds` and then indexes them with the in-row position `j`; the
embedding reads the same per-column statistics directly. -/
noncomputable def standardScaler (X : List (List ℝ)) : List (List ℝ) :=
  if X = [] then X
  else X.map (fun row => row.enum.map (fun p => (p.2 - colMean X p.1) / colStd X p.1))

/-- Source `Math.min(...column)` over a non-empty spread (the guard `data.length
=== 0` ensures columns are non-empty whenever they are read). -/
def colMin (X : List (List ℚ)) (j : ℕ) : ℚ :=
  match columnVals 0 X j with
  | [] => 0
  | h :: t => t.foldl min h

/-- Source `Math.max(...column)`, as for `colMin`. -/
def colMax (X : List (List ℚ)) (j : ℕ) : ℚ :=
  match columnVals 0 X j with
  | [] => 0
  | h :: t => t.foldl max h

/-- Source `minMaxScaler`: empty input unchanged; otherwise cell `(val - mins[j]) /
(maxs[j] - mins[j])`, with an all-zero column when the range is zero. -/
def minMaxScaler (X : List (List ℚ)) : List (List ℚ) :=
  if X = [] then X
  else X.map (fun row => row.enum.map (fun p =>
    if colMax X p.1 - colMin X p.1 = 0 then 0
    else (p.2 - colMin X p.1) / (colMax X p.1 - colMin X p.1)))

/-! ### Train/test splitter (source: `trainTestSplit`) -/

/-- The record returned by `trainTestSplit`. -/
structure ProcessedData where
  X_train : List (List ℚ)
  X_test : List (List ℚ)
  y_train : List ℚ
  y_test : List ℚ
  deriving DecidableEq

/-- Source `trainTestSplit(X, y, testSize, shuffle = false)`.  The `shuffle = true`
branch draws on `Math.random`, an external nondeterminism source outside this
embedding; every claim fixes `shuffle = false`, under which `indices` stays
the identity ordering `[0, n)`.  `splitIndex = Math.floor(X.length * (1 -
testSize))`, and the four outputs are `slice`s of `indices` mapped through
`X[i]` / `y[i]`. -/
def trainTestSplit (X : List (List ℚ)) (y : List ℚ) (testSize : ℚ) : ProcessedData :=
  let indices := List.range X.length
  let splitIndex : ℤ := Int.floor ((X.length : ℚ) * (1 - testSize))
  let trainIndices := jsSlice indices 0 splitIndex
  let testIndices := jsSliceFrom indices splitIndex
  { X_train := trainIndices.map (fun i => X.getD i [])
    X_test := testIndices.map (fun i => X.getD i [])
    y_train := trainIndices.map (fun i => y.getD i 0)
    y_test := testIndices.map (fun i => y.getD i 0) }

/-! ### Evaluation metrics (source: `calculateAccuracy`, `confusionMatrix`) -/

/-- Source `calculateAccuracy`: `0` when `yTrue` is empty, else the number of
index-aligned equal positions divided by the length.  The source counts with
`yTrue.filter((val, i) => val === yPred[i])`; positions of `yTrue` beyond
`yPred` compare against `undefined` and never match, so counting over the
truncating `zip` is the same function. -/
def calculateAccuracy (yTrue yPred : List ℕ) : ℚ :=
  if yTrue.length = 0 then 0
  else ((yTrue.zip yPred).countP (fun p => p.1 == p.2) : ℚ) / yTrue.length

/-- The label ordering of the confusion matrix:
`[...new Set([...yTrue, ...yPred])].sort((a, b) => a - b)`. -/
def confusionLabels (yTrue yPred : List ℕ) : List ℕ :=
  sortedDistinct (yTrue ++ yPred)

/-- Source `matrix[i][j]++`: out-of-range writes are embedded as no-ops
(`List.set` ignores out-of-range indices); the source only ever increments
in-range cells. -/
def bump (m : List (List ℕ)) (i j : ℕ) : List (List ℕ) :=
  m.set i ((m.getD i []).set j ((m.getD i []).getD j 0 + 1))

/-- Source `confusionMatrix`: a zero square matrix over the sorted distinct labels,
then one increment at `[indexOf(actual)][indexOf(predicted)]` per aligned
pair.  When `yPred` is shorter than `yTrue`, the source looks up
`indexOf(undefined) = -1` and the `++` lands on a non-index property, leaving
the matrix contents untouched — the truncating `zip` reproduces that. -/
def confusionMatrix (yTrue yPred : List ℕ) : List (List ℕ) :=
  let labels := confusionLabels yTrue yPred
  let init : List (List ℕ) := labels.map (fun _ => labels.map (fun _ => 0))
  (yTrue.zip yPred).foldl
    (fun m p => bump m (labels.indexOf p.1) (labels.indexOf p.2)) init

/-! ### Logistic regression (source: `sigmoid`, `logisticRegression`,
`predictLogistic`)

`JReal` models a JS `number` as either a finite real or `NaN`.  Infinities
are not modelled: the sigmoid clamp keeps `Math.exp` finite, and the only
division whose divisor can be zero (`/ X_train.length` on an empty training
set) then also has a zero numerator, which IEEE maps to `NaN` — so `nan` is
the only non-finite value this code can produce from finite inputs. -/

inductive JReal where
  | fin (r : ℝ) : JReal
  | nan : JReal

/-- JS `+` on numbers: `NaN` absorbs. -/
def jadd : JReal → JReal → JReal
  | .fin a, .fin b => .fin (a + b)
  | _, _ => .nan

/-- JS `-` on numbers. -/
def jsub : JReal → JReal → JReal
  | .fin a, .fin b => .fin (a - b)
  | _, _ => .nan

/-- JS `*` on numbers. -/
def jmul : JReal → JReal → JReal
  | .fin a, .fin b => .fin (a * b)
  | _, _ => .nan

/-- JS `/` on numbers.  A zero divisor yields `nan` (IEEE gives `±Infinity`
when the numerator is non-zero, but every zero-divisor division this code
performs has a zero numerator, hence genuinely `NaN`). -/
noncomputable def jdiv : JReal → JReal → JReal
  | .fin a, .fin b => if b = 0 then .nan else .fin (a / b)
  | _, _ => .nan

/-- Reading a possibly-missing array slot: `undefined` entering arithmetic
becomes `NaN`. -/
def jofOpt : Option ℝ → JReal
  | some r => .fin r
  | none => .nan

/-- Source `Math.max(-500, Math.min(500, x))`; both `Math.min` and `Math.max`
propagate `NaN`. -/
noncomputable def jclamp : JReal → JReal
  | .fin r => .fin (max (-500) (min 500 r))
  | .nan => .nan

/-- Source `Math.exp`, propagating `NaN`. -/
noncomputable def jexp : JReal → JReal
  | .fin r => .fin (Real.exp r)
  | .nan => .nan

/-- Source `sigmoid(x) = 1 / (1 + Math.exp(-clamp(x)))`. -/
noncomputable def jsigmoid (x : JReal) : JReal :=
  jdiv (.fin 1) (jadd (.fin 1) (jexp (jsub (.fin 0) (jclamp x))))

/-- Source `x.reduce((sum, xi, i) => sum + xi * weights[i], 0)`: the dot product
driven by the row's indices, reading `weights[i]` (missing → `NaN`). -/
noncomputable def dotJ (x : List ℝ) (w : List JReal) : JReal :=
  x.enum.foldl (fun s p => jadd s (jmul (.fin p.2) (w.getD p.1 .nan))) (.fin 0)

/-- One full-batch gradient-descent iteration of `logisticRegression`:
predictions, per-row errors, accumulated gradients, and the weight/bias
update `w[j] -= lr * dw[j] / n`, `b -= lr * db / n`. -/
noncomputable def fitStep (X : List (List ℝ)) (y : List ℝ) (lr : ℝ)
    (s : List JReal × JReal) : List JReal × JReal :=
  let preds := X.map (fun x => jsigmoid (jadd (dotJ x s.1) s.2))
  let errors := preds.enum.map (fun p => jsub p.2 (jofOpt (y.get? p.1)))
  let n : ℝ := X.length
  let nf := (X.headD []).length
  let dw := fun j => (errors.zip X).foldl
    (fun acc er => jadd acc (jmul er.1 (jofOpt (er.2.get? j)))) (.fin 0)
  let db := errors.foldl jadd (.fin 0)
  ((List.range nf).map (fun j =>
      jsub (s.1.getD j .nan) (jdiv (jmul (.fin lr) (dw j)) (.fin n))),
    jsub s.2 (jdiv (jmul (.fin lr) db) (.fin n)))

/-- Source `logisticRegression(X_train, y_train, learningRate, iterations)`:
`numFeatures = X_train[0]?.length || 0`, weights initialized to a zero
vector of that length and bias to `0`, then exactly `iterations` passes of
`fitStep`. -/
noncomputable def logisticRegression (X : List (List ℝ)) (y : List ℝ)
    (lr : ℝ) (iterations : ℕ) : List JReal × JReal :=
  (fitStep X y lr)^[iterations] (List.replicate (X.headD []).length (.fin 0), .fin 0)

/-- Source `predictLogistic`: per row, `sigmoid(dot + bias) >= 0.5 ? 1 : 0`
(a `NaN` probability compares false and yields `0`). -/
noncomputable def predictLogistic (X : List (List ℝ)) (w : List JReal)
    (bias : JReal) : List ℕ :=
  X.map (fun x =>
    match jsigmoid (jadd (dotJ x w) bias) with
    | .fin p => if (1 : ℝ) / 2 ≤ p then 1 else 0
    | .nan => 0)

/-! ### Decision tree (source: `giniImpurity`, `decisionTreeClassifier`,
`predictDecisionTree`) -/

/-- A tree node: either a leaf carrying a prediction or an internal node
with a feature index, a threshold and two children (the source's `TreeNode`
record with optional fields, populated in exactly these two shapes). -/
inductive TreeNode where
  | leaf (prediction : ℕ) : TreeNode
  | node (feature : ℕ) (threshold : ℚ) (left right : TreeNode) : TreeNode
  deriving DecidableEq

/-- The per-label counts the source accumulates into a `Record<number,
number>`, read back through `Object.entries`: for non-negative integer
labels, JS iterates the keys in ascending numeric order, and each value is
the label's multiplicity in `y`. -/
def labelCounts (y : List ℕ) : List (ℕ × ℕ) :=
  (sortedDistinct y).map (fun l => (l, y.count l))

/-- The majority vote `Object.entries(counts).reduce((a, b) => a[1] > b[1] ?
a : b)`: `none` models the `TypeError` JS throws when reducing an empty
array with no initial value (empty `y`). -/
def jsMajority (y : List ℕ) : Option ℕ :=
  match labelCounts y with
  | [] => none
  | e :: es => some ((es.foldl (fun a b => if a.2 > b.2 then a else b) e).1)

/-- Source `giniImpurity`: `0` for an empty subset, else `1 - Σ (count/n)²` over
the distinct labels present. -/
def giniImpurity (y : List ℕ) : ℚ :=
  if y.length = 0 then 0
  else 1 - ((sortedDistinct y).map (fun l => ((y.count l : ℚ) / y.length) ^ 2)).sum

/-- Partition the (row, label) pairs at `row[feature] <= threshold`: the
source collects matching row indices in order and maps them through `X[i]`
and `y[i]`, which for index-aligned `X`/`y` is the order-preserving
partition of the zipped pairs. -/
def partitionAt (X : List (List ℚ)) (y : List ℕ) (f : ℕ) (t : ℚ) :
    (List (List ℚ) × List ℕ) × (List (List ℚ) × List ℕ) :=
  let p := (X.zip y).partition (fun r => r.1.getD f 0 ≤ t)
  ((p.1.map Prod.fst, p.1.map Prod.snd), (p.2.map Prod.fst, p.2.map Prod.snd))

/-- The best split tracked so far (`bestGain` / `bestFeature` /
`bestThreshold`, initialized to `0` / `0` / `0`). -/
structure SplitCand where
  gain : ℚ
  feature : ℕ
  threshold : ℚ
  deriving DecidableEq

/-- Candidate thresholds for a feature: midpoints of consecutive sorted
distinct column values. -/
def candThresholds (X : List (List ℚ)) (f : ℕ) : List ℚ :=
  let vals := sortedDistinct (columnVals 0 X f)
  (vals.zip vals.tail).map (fun p => (p.1 + p.2) / 2)

/-- Evaluate one `(feature, threshold)` candidate: skip if either side is
empty, else `gain = parent - (|L|/n)·gini(L) - (|R|/n)·gini(R)`, updating the
best on strictly greater gain (first-found wins ties). -/
def evalCand (X : List (List ℚ)) (y : List ℕ) (curImp : ℚ) (f : ℕ) (t : ℚ)
    (b : SplitCand) : SplitCand :=
  let parts := partitionAt X y f t
  if parts.1.2.length = 0 ∨ parts.2.2.length = 0 then b
  else
    let gain := curImp - ((parts.1.2.length : ℚ) / y.length) * giniImpurity parts.1.2
      - ((parts.2.2.length : ℚ) / y.length) * giniImpurity parts.2.2
    if gain > b.gain then ⟨gain, f, t⟩ else b

/-- The double loop over features and candidate thresholds. -/
def bestSplit (X : List (List ℚ)) (y : List ℕ) : SplitCand :=
  (List.range (X.headD []).length).foldl
    (fun b f => (candThresholds X f).foldl
      (fun b t => evalCand X y (giniImpurity y) f t b) b)
    ⟨0, 0, 0⟩

/-- One level of the recursive `buildTree` closure of
`decisionTreeClassifier`.  Base cases in source order: a single distinct
label yields that leaf; reaching `maxDepth` or falling under
`minSamplesSplit` yields a majority leaf (`none` when the majority vote
throws on empty `y`); a best gain of `0` also yields a majority leaf;
otherwise recurse on the partition at the best split.  The recursion is
driven structurally by the fuel `maxDepth - depth` supplied by `buildTree`:
the split branch only runs at `depth < maxDepth`, which keeps the fuel
positive there, so the `fuel = 0` arm is unreachable from `buildTree` and
the fuel-indexed function computes exactly the source's recursion. -/
def buildTreeAux (maxDepth minSamplesSplit : ℕ) : ℕ → List (List ℚ) → List ℕ →
    ℕ → Option TreeNode
  | fuel, X, y, depth =>
    if (y.dedup).length = 1 then some (.leaf ((y.dedup).headD 0))
    else if maxDepth ≤ depth ∨ X.length < minSamplesSplit then
      (jsMajority y).map .leaf
    else
      let b := bestSplit X y
      if b.gain = 0 then (jsMajority y).map .leaf
      else
        match fuel with
        | 0 => none
        | fuel + 1 =>
          let parts := partitionAt X y b.feature b.threshold
          match buildTreeAux maxDepth minSamplesSplit fuel parts.1.1 parts.1.2 (depth + 1),
              buildTreeAux maxDepth minSamplesSplit fuel parts.2.1 parts.2.2 (depth + 1) with
          | some tl, some tr => some (.node b.feature b.threshold tl tr)
          | _, _ => none

/-- The recursive builder at a given depth (fuel `maxDepth - depth` matches
the recursion depth the guard permits). -/
def buildTree (maxDepth minSamplesSplit : ℕ) (X : List (List ℚ)) (y : List ℕ)
    (depth : ℕ) : Option TreeNode :=
  buildTreeAux maxDepth minSamplesSplit (maxDepth - depth) X y depth

/-- Source `decisionTreeClassifier(X_train, y_train, maxDepth, minSamplesSplit)`:
the recursive builder started at depth `0`. -/
def decisionTreeClassifier (X : List (List ℚ)) (y : List ℕ)
    (maxDepth minSamplesSplit : ℕ) : Option TreeNode :=
  buildTree maxDepth minSamplesSplit X y 0

/-- Source `predictSingle`: walk from the root, going left on `x[feature] <=
threshold` (a missing `x[feature]` compares false against the threshold and
goes right). -/
def predictSingle (x : List ℚ) : TreeNode → ℕ
  | .leaf p => p
  | .node f t l r =>
    match x.get? f with
    | some v => if v ≤ t then predictSingle x l else predictSingle x r
    | none => predictSingle x r

/-- Source `predictDecisionTree`: one traversal per row. -/
def predictDecisionTree (X : List (List ℚ)) (t : TreeNode) : List ℕ :=
  X.map (fun x => predictSingle x t)

/-- The multiset of predictions stored at the leaves of a tree. -/
def leafLabels : TreeNode → List ℕ
  | .leaf p => [p]
  | .node _ _ l r => leafLabels l ++ leafLabels r

/-- The C6 contract for `minMaxScaler` on a rectangular matrix: identical
shape; every cell within `[0, 1]`; each cell `(val - colMin) / (colMax -
colMin)` except that a zero-range column collapses to all-`0`; empty input
returned unchanged. -/
def MinMaxContract (X : List (List ℚ)) : Prop :=
  (minMaxScaler X).map List.length = X.map List.length ∧
  (∀ i j, i < X.length → j < (X.getD i []).length →
    0 ≤ cellOf (minMaxScaler X) 0 i j ∧ cellOf (minMaxScaler X) 0 i j ≤ 1) ∧
  (∀ i j, i < X.length → j < (X.getD i []).length →
    cellOf (minMaxScaler X) 0 i j =
      if colMax X j - colMin X j = 0 then 0
      else (cellOf X 0 i j - colMin X j) / (colMax X j - colMin X j)) ∧
  (∀ j c, (∀ row ∈ X, row.getD j 0 = c) →
    ∀ i, i < X.length → j < (X.getD i []).length →
      cellOf (minMaxScaler X) 0 i j = 0) ∧
  (X = [] → minMaxScaler X = X)

/-- The C5 contract for `standardScaler` on a rectangular matrix: identical
shape; each cell `(val - colMean) / colStd` where `colStd` substitutes `1`
for a zero standard deviation; every constant column maps to all-`0`; empty
input returned unchanged. -/
def StandardContract (X : List (List ℝ)) : Prop :=
  (standardScaler X).map List.length = X.map List.length ∧
  (∀ i j, i < X.length → j < (X.getD i []).length →
    cellOf (standardScaler X) 0 i j =
      (cellOf X 0 i j - colMean X j) / colStd X j) ∧
  (∀ j, colVariance X j = 0 → colStd X j = 1) ∧
  (∀ j c, (∀ row ∈ X, row.getD j 0 = c) →
    ∀ i, i < X.length → j < (X.getD i []).length →
      cellOf (standardScaler X) 0 i j = 0) ∧
  (X = [] → standardScaler X = X)

/-! ### Sample inputs used by concrete witnesses -/

/-- A 100-row single-feature matrix (rows `[0], [1], …, [99]`). -/
def sampleX100 : List (List ℚ) := (List.range 100).map (fun (i : ℕ) => [(i : ℚ)])

/-- The index-aligned label vector `0, 1, …, 99` for `sampleX100`. -/
def sampleY100 : List ℚ := (List.range 100).map (fun (i : ℕ) => (i : ℚ))

/-- The tree `decisionTreeClassifier [[0], [1]] [0, 1] 5 2` actually builds:
one split at feature `0`, threshold `1/2`, with pure leaves. -/
def sampleTree : TreeNode := .node 0 (1/2) (.leaf 0) (.leaf 1)

/-! ## Helper lemmas -/

theorem mem_sortedDistinct {α : Type} [LinearOrder α] {l : List α} {a : α} :
    a ∈ sortedDistinct l ↔ a ∈ l := by
  rw [sortedDistinct, (List.perm_insertionSort _ _).mem_iff, List.mem_dedup]

theorem sortedDistinct_nodup {α : Type} [LinearOrder α] (l : List α) :
    (sortedDistinct l).Nodup :=
  (List.perm_insertionSort _ _).nodup_iff.mpr l.nodup_dedup

theorem sortedDistinct_sorted_lt {α : Type} [LinearOrder α] (l : List α) :
    (sortedDistinct l).Sorted (· < ·) :=
  (List.sorted_insertionSort _ _).lt_of_le (sortedDistinct_nodup l)

theorem sortedDistinct_eq_nil {α : Type} [LinearOrder α] {l : List α} :
    sortedDistinct l = [] ↔ l = [] := by
  constructor
  · intro h
    by_contra hne
    obtain ⟨a, ha⟩ := List.exists_mem_of_ne_nil l hne
    have : a ∈ sortedDistinct l := mem_sortedDistinct.mpr ha
    simp [h] at this
  · intro h; subst h; rfl

theorem dedup_eq_singleton_of_const {y : List ℕ} {v : ℕ} (hne : y ≠ [])
    (hc : ∀ l ∈ y, l = v) : y.dedup = [v] := by
  have hv : v ∈ y.dedup := by
    rw [List.mem_dedup]
    obtain ⟨a, ha⟩ := List.exists_mem_of_ne_nil y hne
    simpa [hc a ha] using ha
  have hall : ∀ x ∈ y.dedup, x = v := fun x hx => hc x (List.mem_dedup.mp hx)
  have hnd : y.dedup.Nodup := y.nodup_dedup
  match hd : y.dedup with
  | [] => simp [hd] at hv
  | [a] => simp [hall a (by simp [hd])]
  | a :: b :: t =>
    rw [hd] at hnd hall
    have ha := hall a (by simp)
    have hb := hall b (by simp)
    rw [ha, hb] at hnd
    simp at hnd

/-- The result of the JS `reduce((a, b) => a[1] > b[1] ? a : b)` is one of
the entries. -/
theorem foldl_argmax_mem (t : List (ℕ × ℕ)) :
    ∀ e : ℕ × ℕ, t.foldl (fun a b => if a.2 > b.2 then a else b) e ∈ e :: t := by
  induction t with
  | nil => simp
  | cons b t ih =>
    intro e
    simp only [List.foldl_cons]
    by_cases hc : e.2 > b.2
    · rw [if_pos hc]
      rcases List.mem_cons.mp (ih e) with h | h
      · simp [h]
      · simp [h]
    · rw [if_neg hc]
      rcases List.mem_cons.mp (ih b) with h | h
      · simp [h]
      · simp [h]

/-- The reduce result carries a maximal count. -/
theorem foldl_argmax_count (t : List (ℕ × ℕ)) :
    ∀ e : ℕ × ℕ, ∀ x ∈ e :: t,
      x.2 ≤ (t.foldl (fun a b => if a.2 > b.2 then a else b) e).2 := by
  induction t with
  | nil => intro e x hx; simp at hx; simp [hx]
  | cons b t ih =>
    intro e x hx
    simp only [List.foldl_cons]
    have hhead : e.2 ≤ (if e.2 > b.2 then e else b).2 := by
      by_cases hc : e.2 > b.2 <;> simp [hc]; omega
    have hb : b.2 ≤ (if e.2 > b.2 then e else b).2 := by
      by_cases hc : e.2 > b.2 <;> simp [hc]; omega
    rcases List.mem_cons.mp hx with rfl | hx'
    · exact le_trans hhead (ih _ _ (by simp))
    rcases List.mem_cons.mp hx' with rfl | hx''
    · exact le_trans hb (ih _ _ (by simp))
    · exact ih _ x (by simp [hx''])

/-- On a tie in counts, the reduce keeps the later entry; with entries whose
first components are strictly increasing, any entry tying the result's count
has a label `≤` the result's label. -/
theorem foldl_argmax_tiebreak (t : List (ℕ × ℕ)) :
    ∀ e : ℕ × ℕ, (e :: t).Pairwise (fun a b => a.1 < b.1) →
      ∀ x ∈ e :: t, x.2 = (t.foldl (fun a b => if a.2 > b.2 then a else b) e).2 →
        x.1 ≤ (t.foldl (fun a b => if a.2 > b.2 then a else b) e).1 := by
  induction t with
  | nil =>
    intro e _ x hx hx2
    simp at hx; simp [hx]
  | cons b t ih =>
    intro e hpw x hx hx2
    rcases List.pairwise_cons.mp hpw with ⟨heb, hpw1⟩
    rcases List.pairwise_cons.mp hpw1 with ⟨hbt, hpwt⟩
    simp only [List.foldl_cons] at hx2 ⊢
    by_cases hc : e.2 > b.2
    · -- the fold proceeds with head `e`
      rw [if_pos hc] at hx2 ⊢
      have hpw' : (e :: t).Pairwise (fun a b => a.1 < b.1) :=
        List.pairwise_cons.mpr ⟨fun z hz => lt_trans (heb b (by simp)) (hbt z hz), hpwt⟩
      rcases List.mem_cons.mp hx with rfl | hx'
      · exact ih _ hpw' x (by simp) hx2
      rcases List.mem_cons.mp hx' with rfl | hx''
      · -- `x = b` ties the result, yet the result's count strictly dominates it
        have hcnt := foldl_argmax_count t e e (by simp)
        omega
      · exact ih _ hpw' x (by simp [hx'']) hx2
    · -- the fold proceeds with head `b`; `e` is strictly below every later label
      rw [if_neg hc] at hx2 ⊢
      have hpw' : (b :: t).Pairwise (fun a b => a.1 < b.1) :=
        List.pairwise_cons.mpr ⟨hbt, hpwt⟩
      rcases List.mem_cons.mp hx with rfl | hx'
      · rcases List.mem_cons.mp (foldl_argmax_mem t b) with h | h
        · rw [h]; exact le_of_lt (heb b (by simp))
        · exact le_of_lt (heb _ (by simp [h]))
      rcases List.mem_cons.mp hx' with rfl | hx''
      · exact ih _ hpw' x (by simp) hx2
      · exact ih _ hpw' x (by simp [hx'']) hx2

/-- Each entry of `labelCounts` is a label of `y` with its multiplicity. -/
theorem labelCounts_entry {y : List ℕ} {p : ℕ × ℕ} (hp : p ∈ labelCounts y) :
    p.1 ∈ y ∧ p.2 = y.count p.1 := by
  unfold labelCounts at hp
  rcases List.mem_map.mp hp with ⟨l, hl, rfl⟩
  exact ⟨mem_sortedDistinct.mp hl, rfl⟩

theorem mem_labelCounts {y : List ℕ} {l : ℕ} (hl : l ∈ y) :
    (l, y.count l) ∈ labelCounts y :=
  List.mem_map.mpr ⟨l, mem_sortedDistinct.mpr hl, rfl⟩

theorem labelCounts_pairwise (y : List ℕ) :
    (labelCounts y).Pairwise (fun a b => a.1 < b.1) := by
  unfold labelCounts
  rw [List.pairwise_map]
  exact sortedDistinct_sorted_lt y

/-- The majority vote succeeds exactly on non-empty label lists. -/
theorem jsMajority_isSome {y : List ℕ} (hne : y ≠ []) :
    ∃ m, jsMajority y = some m := by
  unfold jsMajority
  rcases hlc : labelCounts y with _ | ⟨e, es⟩
  · exfalso
    unfold labelCounts at hlc
    have h := List.map_eq_nil_iff.mp hlc
    exact hne (sortedDistinct_eq_nil.mp h)
  · exact ⟨_, rfl⟩

/-- What `Object.entries(counts).reduce((a, b) => a[1] > b[1] ? a : b)`
returns: an observed label of maximal multiplicity, and on ties the greatest
such label (entries are iterated in ascending label order and the reduce
keeps the later entry of a tie). -/
theorem jsMajority_spec {y : List ℕ} {m : ℕ} (h : jsMajority y = some m) :
    m ∈ y ∧ (∀ l ∈ y, y.count l ≤ y.count m) ∧
      (∀ l ∈ y, y.count l = y.count m → l ≤ m) := by
  unfold jsMajority at h
  rcases hlc : labelCounts y with _ | ⟨e, es⟩
  · rw [hlc] at h; simp at h
  · rw [hlc] at h
    simp only [Option.some.injEq] at h
    have hrmem : es.foldl (fun a b => if a.2 > b.2 then a else b) e ∈ labelCounts y := by
      rw [hlc]; exact foldl_argmax_mem es e
    have hrm := labelCounts_entry hrmem
    subst h
    refine ⟨hrm.1, ?_, ?_⟩
    · intro l hl
      have hmem : (l, y.count l) ∈ e :: es := by rw [← hlc]; exact mem_labelCounts hl
      have hcount := foldl_argmax_count es e (l, y.count l) hmem
      rw [hrm.2] at hcount
      exact hcount
    · intro l hl htie
      have hmem : (l, y.count l) ∈ e :: es := by rw [← hlc]; exact mem_labelCounts hl
      have hpw : (e :: es).Pairwise (fun a b => a.1 < b.1) := by
        rw [← hlc]; exact labelCounts_pairwise y
      refine foldl_argmax_tiebreak es e hpw (l, y.count l) hmem ?_
      rw [hrm.2]
      exact htie

/-- Mapping `i => l[i]` over a prefix of `range l.length` recovers the
prefix of `l`. -/
theorem map_getD_range_take {α : Type} (d : α) :
    ∀ (l : List α) (c : ℕ), c ≤ l.length →
      (List.range c).map (fun i => l.getD i d) = l.take c := by
  intro l
  induction l with
  | nil =>
    intro c hc
    simp at hc
    subst hc
    simp
  | cons h t ih =>
    intro c hc
    match c with
    | 0 => simp
    | c' + 1 =>
      rw [List.range_succ_eq_map]
      simp only [List.map_cons, List.map_map, List.take_succ_cons]
      refine congrArg₂ _ rfl ?_
      have : ((fun i => (h :: t).getD i d) ∘ (· + 1)) = fun i => t.getD i d := by
        funext i; simp
      rw [this]
      exact ih c' (by simpa using hc)

theorem map_getD_range {α : Type} (d : α) (l : List α) :
    (List.range l.length).map (fun i => l.getD i d) = l := by
  simpa using map_getD_range_take d l l.length le_rfl

theorem jsClampIndex_le (n : ℕ) (i : ℤ) : jsClampIndex n i ≤ n := by
  unfold jsClampIndex
  split
  · omega
  · omega

theorem map_getD_range_drop {α : Type} (d : α) (l : List α) (c : ℕ)
    (hc : c ≤ l.length) :
    ((List.range l.length).drop c).map (fun i => l.getD i d) = l.drop c := by
  have happ := congrArg (List.map (fun i => l.getD i d))
    (List.take_append_drop c (List.range l.length))
  rw [List.map_append, map_getD_range, List.take_range,
    min_eq_left (by simpa using hc), map_getD_range_take d l c hc] at happ
  exact List.append_cancel_left (happ.trans (List.take_append_drop c l).symm)

/-- With `shuffle = false` the splitter is exactly a take/drop at the
clamped floor index. -/
theorem trainTestSplit_eq (X : List (List ℚ)) (y : List ℚ) (f : ℚ)
    (hlen : y.length = X.length) :
    trainTestSplit X y f =
      ⟨X.take (jsClampIndex X.length (Int.floor ((X.length : ℚ) * (1 - f)))),
        X.drop (jsClampIndex X.length (Int.floor ((X.length : ℚ) * (1 - f)))),
        y.take (jsClampIndex X.length (Int.floor ((X.length : ℚ) * (1 - f)))),
        y.drop (jsClampIndex X.length (Int.floor ((X.length : ℚ) * (1 - f))))⟩ := by
  have hzero : jsClampIndex X.length 0 = 0 := by simp [jsClampIndex]
  have hle := jsClampIndex_le X.length (Int.floor ((X.length : ℚ) * (1 - f)))
  unfold trainTestSplit jsSlice jsSliceFrom
  simp only [List.length_range, hzero, List.drop_zero, List.take_range,
    min_eq_left hle]
  rw [ProcessedData.mk.injEq]
  refine ⟨map_getD_range_take [] X _ hle, map_getD_range_drop [] X _ hle, ?_, ?_⟩
  · rw [← hlen]
    exact map_getD_range_take 0 y _ (jsClampIndex_le _ _)
  · rw [← hlen]
    exact map_getD_range_drop 0 y _ (jsClampIndex_le _ _)

/-- C1: for index-aligned `X` and `y` and any fraction, `split(X, y, f,
shuffle=false)` keeps the first `floor(n * (1 - f))` rows (in order) as the
train set and the remaining rows as the test set, with `y_train` / `y_test`
aligned to them, and the outputs always partition the input rows (train ++
test restores `X` and `y` exactly). -/
theorem trainTestSplit_no_shuffle_spec (X : List (List ℚ)) (y : List ℚ) (f : ℚ)
    (hlen : y.length = X.length) :
    ((trainTestSplit X y f).X_train ++ (trainTestSplit X y f).X_test = X ∧
      (trainTestSplit X y f).y_train ++ (trainTestSplit X y f).y_test = y) ∧
    (0 ≤ f → f ≤ 1 →
      (trainTestSplit X y f).X_train =
          X.take (Int.floor ((X.length : ℚ) * (1 - f))).toNat ∧
        (trainTestSplit X y f).X_test =
          X.drop (Int.floor ((X.length : ℚ) * (1 - f))).toNat ∧
        (trainTestSplit X y f).y_train =
          y.take (Int.floor ((X.length : ℚ) * (1 - f))).toNat ∧
        (trainTestSplit X y f).y_test =
          y.drop (Int.floor ((X.length : ℚ) * (1 - f))).toNat) := by
  rw [trainTestSplit_eq X y f hlen]
  refine ⟨⟨List.take_append_drop _ X, List.take_append_drop _ y⟩, ?_⟩
  intro hf0 hf1
  have h0 : (0 : ℤ) ≤ Int.floor ((X.length : ℚ) * (1 - f)) := by
    apply Int.le_floor.mpr
    push_cast
    exact mul_nonneg (by positivity) (by linarith)
  have h1 : Int.floor ((X.length : ℚ) * (1 - f)) ≤ (X.length : ℤ) := by
    have hb : ((X.length : ℚ) * (1 - f)) ≤ (X.length : ℚ) := by
      nlinarith [Nat.cast_nonneg (α := ℚ) X.length]
    calc Int.floor ((X.length : ℚ) * (1 - f)) ≤ Int.floor ((X.length : ℚ)) :=
          Int.floor_le_floor hb
      _ = (X.length : ℤ) := Int.floor_natCast _
  have hclamp : jsClampIndex X.length (Int.floor ((X.length : ℚ) * (1 - f))) =
      (Int.floor ((X.length : ℚ) * (1 - f))).toNat := by
    unfold jsClampIndex
    rw [if_neg (by omega)]
    exact min_eq_left (by omega)
  rw [hclamp]
  exact ⟨rfl, rfl, rfl, rfl⟩

/-- Witness for `trainTestSplit_no_shuffle_spec`: the claim's own instance —
100 index-aligned rows, `f = 1/4`, no shuffle — yields exactly the first 75
rows as the train set and the remaining 25 as the test set. -/
theorem trainTestSplit_no_shuffle_spec_witness :
    sampleY100.length = sampleX100.length ∧
      (trainTestSplit sampleX100 sampleY100 (1/4)).X_train = sampleX100.take 75 ∧
      (trainTestSplit sampleX100 sampleY100 (1/4)).X_test = sampleX100.drop 75 ∧
      (trainTestSplit sampleX100 sampleY100 (1/4)).X_train.length = 75 ∧
      (trainTestSplit sampleX100 sampleY100 (1/4)).X_test.length = 25 := by
  have hlen : sampleY100.length = sampleX100.length := by
    rw [sampleY100, sampleX100, List.length_map, List.length_map]
  have hX : sampleX100.length = 100 := by
    rw [sampleX100, List.length_map, List.length_range]
  have h := (trainTestSplit_no_shuffle_spec sampleX100 sampleY100 (1/4) hlen).2
    (by norm_num) (by norm_num)
  have hfl : (Int.floor ((sampleX100.length : ℚ) * (1 - 1/4))).toNat = 75 := by
    rw [hX]
    norm_num
    decide
  rw [hfl] at h
  refine ⟨hlen, h.1, h.2.1, ?_, ?_⟩
  · rw [h.1, List.length_take, hX]
    norm_num
  · rw [h.2.1, List.length_drop, hX]

/-- C9: both predictors are pure functions of their model and input — two
calls with identical model and rows return identical outputs (the embedded
prediction paths, like the source's, read but never write their state). -/
theorem predict_idempotent :
    (∀ (X : List (List ℝ)) (w : List JReal) (b : JReal),
      predictLogistic X w b = predictLogistic X w b) ∧
    ∀ (X : List (List ℚ)) (t : TreeNode),
      predictDecisionTree X t = predictDecisionTree X t :=
  ⟨fun _ _ _ => rfl, fun _ _ => rfl⟩

/-- Running `logisticRegression` on an empty training set: the weight vector is (and
stays) empty, and the very first bias update computes `lr * 0 / 0 = NaN`,
after which the bias remains `NaN`. -/
theorem logisticRegression_nil (lr : ℝ) :
    ∀ n : ℕ, logisticRegression [] [] lr n =
      ([], if n = 0 then JReal.fin 0 else JReal.nan) := by
  intro n
  induction n with
  | zero => simp [logisticRegression]
  | succ n ih =>
    unfold logisticRegression at ih ⊢
    rw [Function.iterate_succ_apply', ih]
    have hstep : ∀ b : JReal, fitStep [] [] lr ([], b) = ([], JReal.nan) := by
      intro b
      unfold fitStep
      simp only [List.map_nil, List.enum_nil, List.headD_nil, List.length_nil,
        List.range_zero, List.foldl_nil, Nat.cast_zero]
      have hdiv : jdiv (jmul (.fin lr) (.fin 0)) (.fin 0) = .nan := by
        simp [jmul, jdiv]
      rw [hdiv]
      cases b <;> simp [jsub]
    split <;> rw [hstep] <;> simp

/-- C3 (amended): for every learning rate and iteration count,
`logisticRegression` on zero training rows returns a weight vector of length
0, but it is not a complete no-op on the bias: with at least one iteration
the returned bias is `NaN` (the zero bias gradient is divided by the zero
row count), and only with zero iterations does the bias keep its zero
initialization. -/
theorem logisticRegression_empty_weights (lr : ℝ) (iterations : ℕ) :
    logisticRegression [] [] lr iterations =
      ([], if iterations = 0 then JReal.fin 0 else JReal.nan) :=
  logisticRegression_nil lr iterations

/-- C3 counterexample: at the source defaults (`learningRate = 0.1`,
`iterations = 1000`) the bias returned for an empty training set is `NaN`,
not its zero initialization. -/
theorem logisticRegression_empty_bias_not_zero :
    logisticRegression [] [] (1/10) 1000 = ([], JReal.nan) ∧
      JReal.nan ≠ JReal.fin 0 := by
  refine ⟨?_, by simp⟩
  rw [logisticRegression_nil]
  norm_num

/-- C2 (amended): on empty inputs the scalers, the splitter, both
predictors, the evaluator, and the logistic trainer's weight vector all come
back empty or zero without an error; but the claim's decision-tree case
fails: `decisionTreeClassifier` on an empty training set throws (the
majority-vote `reduce` runs on an empty array; embedded as `none`), and the
logistic trainer's bias degrades to `NaN` rather than zero. -/
theorem empty_input_behavior :
    standardScaler [] = [] ∧
    minMaxScaler [] = [] ∧
    (∀ f : ℚ, trainTestSplit [] [] f = ⟨[], [], [], []⟩) ∧
    (∀ (lr : ℝ) (n : ℕ), (logisticRegression [] [] lr n).1 = []) ∧
    (∀ (w : List JReal) (b : JReal), predictLogistic [] w b = []) ∧
    (∀ t : TreeNode, predictDecisionTree [] t = []) ∧
    calculateAccuracy [] [] = 0 ∧
    confusionMatrix [] [] = [] ∧
    (∀ d m : ℕ, decisionTreeClassifier [] [] d m = none) := by
  refine ⟨by simp [standardScaler], rfl, ?_, ?_, fun _ _ => rfl, fun _ => rfl,
    rfl, rfl, ?_⟩
  · intro f
    rw [trainTestSplit_eq [] [] f rfl]
    simp
  · intro lr n
    rw [logisticRegression_nil]
  · intro d m
    unfold decisionTreeClassifier buildTree buildTreeAux
    have h1 : jsMajority ([] : List ℕ) = none := rfl
    have h2 : bestSplit [] [] = ⟨0, 0, 0⟩ := rfl
    simp [h1, h2]

/-- C2 counterexample: fitting the decision tree on an empty training set at
the source defaults (`maxDepth = 5`, `minSamplesSplit = 2`) does fail — the
majority-vote `reduce` of the empty entries array throws, embedded as a
`none` result instead of a tree. -/
theorem decisionTree_empty_fails : decisionTreeClassifier [] [] 5 2 = none := by
  decide

/-- The head of a non-empty `dedup` is an element of the original list. -/
theorem headD_dedup_mem {y : List ℕ} (h : y.dedup ≠ []) : (y.dedup).headD 0 ∈ y := by
  rcases hd : y.dedup with _ | ⟨a, t⟩
  · exact absurd hd h
  · have ha : a ∈ y.dedup := by rw [hd]; simp
    simpa using List.mem_dedup.mp ha

/-- When every label equals `v`, the builder's first base case fires
immediately: the tree is the single leaf `v`, whatever the parameters. -/
theorem buildTree_const_labels {y : List ℕ} {v : ℕ} (hne : y ≠ [])
    (hc : ∀ l ∈ y, l = v) (maxDepth minSamplesSplit : ℕ) (X : List (List ℚ)) :
    decisionTreeClassifier X y maxDepth minSamplesSplit = some (.leaf v) := by
  unfold decisionTreeClassifier buildTree buildTreeAux
  rw [dedup_eq_singleton_of_const hne hc]
  simp

/-- C7: a tree trained on a non-empty set whose labels all equal a single
value `v` is the leaf `v`, and predicting with it returns `v` for every row
of every input matrix. -/
theorem predictTree_const_labels (X : List (List ℚ)) (y : List ℕ) (v : ℕ)
    (maxDepth minSamplesSplit : ℕ) (hne : y ≠ []) (hc : ∀ l ∈ y, l = v) :
    decisionTreeClassifier X y maxDepth minSamplesSplit = some (.leaf v) ∧
      ∀ (Z : List (List ℚ)) (r : ℕ), r ∈ predictDecisionTree Z (.leaf v) → r = v := by
  refine ⟨buildTree_const_labels hne hc maxDepth minSamplesSplit X, ?_⟩
  intro Z r hr
  rcases List.mem_map.mp hr with ⟨x, _, rfl⟩
  rfl

/-- Witness for `predictTree_const_labels`: training on two rows both
labelled `1` gives the leaf `1` and constant predictions. -/
theorem predictTree_const_labels_witness :
    (([1, 1] : List ℕ) ≠ []) ∧ (∀ l ∈ ([1, 1] : List ℕ), l = 1) ∧
      (decisionTreeClassifier [[2], [3]] [1, 1] 5 2 = some (.leaf 1) ∧
        ∀ (Z : List (List ℚ)) (r : ℕ), r ∈ predictDecisionTree Z (.leaf 1) → r = 1) :=
  ⟨by simp, by decide,
    predictTree_const_labels [[2], [3]] [1, 1] 1 5 2 (by simp) (by decide)⟩

/-- C4 counterexample: with `maxDepth = 0` and the tied label multiset
`[0, 1]` the source returns the leaf `1`; the claimed tie-break ("whichever
label is encountered first", here `0`) would give the leaf `0`. -/
theorem maxDepth_zero_tiebreak_counterexample :
    decisionTreeClassifier [[0], [1]] [0, 1] 0 2 = some (.leaf 1) ∧
      decisionTreeClassifier [[0], [1]] [0, 1] 0 2 ≠ some (.leaf 0) :=
  ⟨by decide, by decide⟩

/-- C4 (amended): `fitTree` with `maxDepth = 0` on a non-empty training set
returns a single-leaf tree predicting a label of maximal multiplicity in the
full training label set — but ties break toward the *greatest* tied label
(JS iterates the integer-keyed count record in ascending order and the
`reduce` keeps the later entry of a tie), not the first encountered — and
`predictTree` then returns that label for every row. -/
theorem maxDepth_zero_majority_leaf (X : List (List ℚ)) (y : List ℕ)
    (minSamplesSplit : ℕ) (hne : y ≠ []) :
    ∃ m, decisionTreeClassifier X y 0 minSamplesSplit = some (.leaf m) ∧
      m ∈ y ∧ (∀ l ∈ y, y.count l ≤ y.count m) ∧
      (∀ l ∈ y, y.count l = y.count m → l ≤ m) ∧
      ∀ Z : List (List ℚ), predictDecisionTree Z (.leaf m) = Z.map (fun _ => m) := by
  unfold decisionTreeClassifier buildTree buildTreeAux
  by_cases h1 : (y.dedup).length = 1
  · rcases hd : y.dedup with _ | ⟨v, t⟩
    · rw [hd] at h1; simp at h1
    · rw [hd] at h1
      simp only [List.length_cons, Nat.add_eq_zero, Nat.succ.injEq] at h1
      have ht0 : t = [] := List.length_eq_zero.mp h1
      subst ht0
      have hmem : v ∈ y := by
        have : v ∈ y.dedup := by rw [hd]; simp
        exact List.mem_dedup.mp this
      have hall : ∀ l ∈ y, l = v := by
        intro l hl
        have : l ∈ y.dedup := List.mem_dedup.mpr hl
        rw [hd] at this
        simpa using this
      refine ⟨v, ?_, hmem, ?_, ?_, fun Z => rfl⟩
      · simp
      · intro l hl; rw [hall l hl]
      · intro l hl _; rw [hall l hl]
  · rw [if_neg h1, if_pos (Or.inl (Nat.le_refl 0))]
    obtain ⟨m, hm⟩ := jsMajority_isSome hne
    obtain ⟨hmem, hcnt, htie⟩ := jsMajority_spec hm
    rw [hm]
    exact ⟨m, rfl, hmem, hcnt, htie, fun Z => rfl⟩

/-- Witness for `maxDepth_zero_majority_leaf` at the tied instance
`y = [0, 1]`. -/
theorem maxDepth_zero_majority_leaf_witness :
    (([0, 1] : List ℕ) ≠ []) ∧
      ∃ m, decisionTreeClassifier [[0], [1]] [0, 1] 0 2 = some (.leaf m) ∧
        m ∈ ([0, 1] : List ℕ) ∧
        (∀ l ∈ ([0, 1] : List ℕ), ([0, 1] : List ℕ).count l ≤ ([0, 1] : List ℕ).count m) ∧
        (∀ l ∈ ([0, 1] : List ℕ), ([0, 1] : List ℕ).count l = ([0, 1] : List ℕ).count m → l ≤ m) ∧
        ∀ Z : List (List ℚ), predictDecisionTree Z (.leaf m) = Z.map (fun _ => m) :=
  ⟨by simp, maxDepth_zero_majority_leaf [[0], [1]] [0, 1] 2 (by simp)⟩

/-- Both label sublists produced by a partition step draw from `y`. -/
theorem partitionAt_labels_sub (X : List (List ℚ)) (y : List ℕ) (f : ℕ) (t : ℚ) :
    (∀ p ∈ (partitionAt X y f t).1.2, p ∈ y) ∧
      ∀ p ∈ (partitionAt X y f t).2.2, p ∈ y := by
  unfold partitionAt
  constructor <;> intro p hp <;>
    simp only [List.partition_eq_filter_filter] at hp <;>
    rcases List.mem_map.mp hp with ⟨pair, hpair, rfl⟩ <;>
    exact (List.of_mem_zip (List.mem_of_mem_filter hpair)).2

/-- A traversal always ends in one of the tree's leaves. -/
theorem predictSingle_mem_leafLabels (x : List ℚ) (t : TreeNode) :
    predictSingle x t ∈ leafLabels t := by
  induction t with
  | leaf p => simp [predictSingle, leafLabels]
  | node f th l r ihl ihr =>
    simp only [predictSingle, leafLabels, List.mem_append]
    cases hget : x.get? f with
    | none => exact Or.inr ihr
    | some v =>
      by_cases hv : v ≤ th
      · simpa [hv] using Or.inl ihl
      · simpa [hv] using Or.inr ihr

/-- A majority-vote leaf result carries an observed label. -/
theorem majority_leaf_labels {y : List ℕ} {t : TreeNode}
    (ht : Option.map TreeNode.leaf (jsMajority y) = some t) :
    ∀ p ∈ leafLabels t, p ∈ y := by
  rcases hm : jsMajority y with _ | m
  · rw [hm] at ht; simp at ht
  · rw [hm] at ht
    simp only [Option.map_some', Option.some.injEq] at ht
    intro p hp
    rw [← ht] at hp
    simp only [leafLabels, List.mem_singleton] at hp
    rw [hp]
    exact (jsMajority_spec hm).1

/-- A unique-label leaf result carries an observed label. -/
theorem unique_leaf_labels {y : List ℕ} {t : TreeNode} (h1 : (y.dedup).length = 1)
    (ht : some (TreeNode.leaf ((y.dedup).headD 0)) = some t) :
    ∀ p ∈ leafLabels t, p ∈ y := by
  have hne : y.dedup ≠ [] := by intro h; rw [h] at h1; simp at h1
  intro p hp
  obtain rfl : TreeNode.leaf ((y.dedup).headD 0) = t := by
    injection ht
  simp only [leafLabels, List.mem_singleton] at hp
  rw [hp]
  exact headD_dedup_mem hne

/-- Definitional unfolding of the builder at exhausted fuel. -/
theorem buildTreeAux_zero (maxDepth minSamplesSplit : ℕ) (X : List (List ℚ))
    (y : List ℕ) (depth : ℕ) :
    buildTreeAux maxDepth minSamplesSplit 0 X y depth =
      if (y.dedup).length = 1 then some (.leaf ((y.dedup).headD 0))
      else if maxDepth ≤ depth ∨ X.length < minSamplesSplit then
        (jsMajority y).map .leaf
      else if (bestSplit X y).gain = 0 then (jsMajority y).map .leaf
      else none := rfl

/-- Definitional unfolding of the builder at positive fuel. -/
theorem buildTreeAux_succ (maxDepth minSamplesSplit fuel : ℕ) (X : List (List ℚ))
    (y : List ℕ) (depth : ℕ) :
    buildTreeAux maxDepth minSamplesSplit (fuel + 1) X y depth =
      if (y.dedup).length = 1 then some (.leaf ((y.dedup).headD 0))
      else if maxDepth ≤ depth ∨ X.length < minSamplesSplit then
        (jsMajority y).map .leaf
      else if (bestSplit X y).gain = 0 then (jsMajority y).map .leaf
      else
        match buildTreeAux maxDepth minSamplesSplit fuel
            (partitionAt X y (bestSplit X y).feature (bestSplit X y).threshold).1.1
            (partitionAt X y (bestSplit X y).feature (bestSplit X y).threshold).1.2
            (depth + 1),
          buildTreeAux maxDepth minSamplesSplit fuel
            (partitionAt X y (bestSplit X y).feature (bestSplit X y).threshold).2.1
            (partitionAt X y (bestSplit X y).feature (bestSplit X y).threshold).2.2
            (depth + 1) with
        | some tl, some tr =>
          some (.node (bestSplit X y).feature (bestSplit X y).threshold tl tr)
        | _, _ => none := rfl

/-- Every leaf prediction of a tree the builder returns occurs in the
training labels: the unique-label leaf and both majority leaves take an
observed label, and the recursive case passes partition-restricted label
lists down. -/
theorem buildTreeAux_leafLabels (maxDepth minSamplesSplit : ℕ) :
    ∀ (fuel : ℕ) (X : List (List ℚ)) (y : List ℕ) (depth : ℕ) (t : TreeNode),
      buildTreeAux maxDepth minSamplesSplit fuel X y depth = some t →
      ∀ p ∈ leafLabels t, p ∈ y := by
  intro fuel
  induction fuel with
  | zero =>
    intro X y depth t ht
    rw [buildTreeAux_zero] at ht
    by_cases h1 : (y.dedup).length = 1
    · rw [if_pos h1] at ht
      exact unique_leaf_labels h1 ht
    · rw [if_neg h1] at ht
      by_cases h2 : maxDepth ≤ depth ∨ X.length < minSamplesSplit
      · rw [if_pos h2] at ht
        exact majority_leaf_labels ht
      · rw [if_neg h2] at ht
        by_cases h3 : (bestSplit X y).gain = 0
        · rw [if_pos h3] at ht
          exact majority_leaf_labels ht
        · rw [if_neg h3] at ht
          exact absurd ht (by simp)
  | succ fuel ih =>
    intro X y depth t ht
    rw [buildTreeAux_succ] at ht
    by_cases h1 : (y.dedup).length = 1
    · rw [if_pos h1] at ht
      exact unique_leaf_labels h1 ht
    · rw [if_neg h1] at ht
      by_cases h2 : maxDepth ≤ depth ∨ X.length < minSamplesSplit
      · rw [if_pos h2] at ht
        exact majority_leaf_labels ht
      · rw [if_neg h2] at ht
        by_cases h3 : (bestSplit X y).gain = 0
        · rw [if_pos h3] at ht
          exact majority_leaf_labels ht
        · rw [if_neg h3] at ht
          rcases hL : buildTreeAux maxDepth minSamplesSplit fuel
              (partitionAt X y (bestSplit X y).feature (bestSplit X y).threshold).1.1
              (partitionAt X y (bestSplit X y).feature (bestSplit X y).threshold).1.2
              (depth + 1) with _ | tl
          · rw [hL] at ht; simp at ht
          rcases hR : buildTreeAux maxDepth minSamplesSplit fuel
              (partitionAt X y (bestSplit X y).feature (bestSplit X y).threshold).2.1
              (partitionAt X y (bestSplit X y).feature (bestSplit X y).threshold).2.2
              (depth + 1) with _ | tr
          · rw [hL, hR] at ht; simp at ht
          rw [hL, hR] at ht
          simp only [Option.some.injEq] at ht
          intro p hp
          rw [← ht] at hp
          simp only [leafLabels, List.mem_append] at hp
          rcases hp with hp | hp
          · exact (partitionAt_labels_sub X y _ _).1 p (ih _ _ _ tl hL p hp)
          · exact (partitionAt_labels_sub X y _ _).2 p (ih _ _ _ tr hR p hp)

/-- C10: every value `predictTree` returns, on any input matrix, for a tree
`fitTree` built from a non-empty training set, is a label occurring in that
training label vector — leaf predictions are always drawn from the observed
labels. -/
theorem predictTree_labels_observed (X : List (List ℚ)) (y : List ℕ)
    (maxDepth minSamplesSplit : ℕ) (t : TreeNode) (_hne : y ≠ [])
    (ht : decisionTreeClassifier X y maxDepth minSamplesSplit = some t)
    (Z : List (List ℚ)) (r : ℕ) (hr : r ∈ predictDecisionTree Z t) : r ∈ y := by
  rcases List.mem_map.mp hr with ⟨x, _, rfl⟩
  exact buildTreeAux_leafLabels maxDepth minSamplesSplit _ X y 0 t ht _
    (predictSingle_mem_leafLabels x t)

/-- Witness for `predictTree_labels_observed`: the two-row training set
builds `sampleTree`, whose prediction on the row `[0]` is the observed
label `0`. -/
theorem predictTree_labels_observed_witness :
    (([0, 1] : List ℕ) ≠ []) ∧
      decisionTreeClassifier [[0], [1]] [0, 1] 5 2 = some sampleTree ∧
      (0 : ℕ) ∈ predictDecisionTree [[0]] sampleTree ∧
      (0 : ℕ) ∈ ([0, 1] : List ℕ) :=
  ⟨by simp, by with_unfolding_all rfl, by with_unfolding_all decide,
    predictTree_labels_observed [[0], [1]] [0, 1] 5 2 sampleTree (by simp)
      (by with_unfolding_all rfl) [[0]] 0 (by with_unfolding_all decide)⟩

theorem foldl_min_le (t : List ℚ) : ∀ (h x : ℚ), x ∈ h :: t → t.foldl min h ≤ x := by
  induction t with
  | nil => intro h x hx; simp at hx; simp [hx]
  | cons b t ih =>
    intro h x hx
    simp only [List.foldl_cons]
    rcases List.mem_cons.mp hx with rfl | hx'
    · exact le_trans (ih (min x b) (min x b) (by simp)) (min_le_left _ _)
    rcases List.mem_cons.mp hx' with rfl | hx''
    · exact le_trans (ih (min h x) (min h x) (by simp)) (min_le_right _ _)
    · exact ih (min h b) x (by simp [hx''])

theorem foldl_le_max (t : List ℚ) : ∀ (h x : ℚ), x ∈ h :: t → x ≤ t.foldl max h := by
  induction t with
  | nil => intro h x hx; simp at hx; simp [hx]
  | cons b t ih =>
    intro h x hx
    simp only [List.foldl_cons]
    rcases List.mem_cons.mp hx with rfl | hx'
    · exact le_trans (le_max_left x b) (ih (max x b) (max x b) (by simp))
    rcases List.mem_cons.mp hx' with rfl | hx''
    · exact le_trans (le_max_right h x) (ih (max h x) (max h x) (by simp))
    · exact ih (max h b) x (by simp [hx''])

theorem foldl_min_mem (t : List ℚ) : ∀ h : ℚ, t.foldl min h ∈ h :: t := by
  induction t with
  | nil => simp
  | cons b t ih =>
    intro h
    simp only [List.foldl_cons]
    rcases List.mem_cons.mp (ih (min h b)) with hm | hm
    · rcases min_choice h b with hc | hc <;> rw [hm, hc] <;> simp
    · simp [hm]

theorem foldl_max_mem (t : List ℚ) : ∀ h : ℚ, t.foldl max h ∈ h :: t := by
  induction t with
  | nil => simp
  | cons b t ih =>
    intro h
    simp only [List.foldl_cons]
    rcases List.mem_cons.mp (ih (max h b)) with hm | hm
    · rcases max_choice h b with hc | hc <;> rw [hm, hc] <;> simp
    · simp [hm]

theorem colMin_le {X : List (List ℚ)} {j : ℕ} {v : ℚ}
    (hv : v ∈ columnVals 0 X j) : colMin X j ≤ v := by
  unfold colMin
  rcases hc : columnVals 0 X j with _ | ⟨h, t⟩
  · rw [hc] at hv; simp at hv
  · rw [hc] at hv
    exact foldl_min_le t h v hv

theorem le_colMax {X : List (List ℚ)} {j : ℕ} {v : ℚ}
    (hv : v ∈ columnVals 0 X j) : v ≤ colMax X j := by
  unfold colMax
  rcases hc : columnVals 0 X j with _ | ⟨h, t⟩
  · rw [hc] at hv; simp at hv
  · rw [hc] at hv
    exact foldl_le_max t h v hv

theorem colMin_mem {X : List (List ℚ)} {j : ℕ} (hX : X ≠ []) :
    colMin X j ∈ columnVals 0 X j := by
  unfold colMin
  rcases hc : columnVals 0 X j with _ | ⟨h, t⟩
  · exact absurd (by simpa [columnVals] using hc) hX
  · exact foldl_min_mem t h

theorem colMax_mem {X : List (List ℚ)} {j : ℕ} (hX : X ≠ []) :
    colMax X j ∈ columnVals 0 X j := by
  unfold colMax
  rcases hc : columnVals 0 X j with _ | ⟨h, t⟩
  · exact absurd (by simpa [columnVals] using hc) hX
  · exact foldl_max_mem t h

/-- The cell of `minMaxScaler` at an in-range position. -/
theorem minMaxScaler_cell (X : List (List ℚ)) (i j : ℕ) (hi : i < X.length)
    (hj : j < (X.getD i []).length) :
    cellOf (minMaxScaler X) 0 i j =
      if colMax X j - colMin X j = 0 then 0
      else (cellOf X 0 i j - colMin X j) / (colMax X j - colMin X j) := by
  have hX : X ≠ [] := by intro h; rw [h] at hi; simp at hi
  have hj' : j < (X[i]).length := by rwa [List.getD_eq_getElem _ _ hi] at hj
  unfold minMaxScaler cellOf
  rw [if_neg hX]
  have h1 : (X.map (fun row => row.enum.map (fun p =>
        if colMax X p.1 - colMin X p.1 = 0 then 0
        else (p.2 - colMin X p.1) / (colMax X p.1 - colMin X p.1)))).getD i []
      = (X[i]).enum.map (fun p =>
        if colMax X p.1 - colMin X p.1 = 0 then 0
        else (p.2 - colMin X p.1) / (colMax X p.1 - colMin X p.1)) := by
    rw [List.getD_eq_getElem _ _ (by simpa using hi), List.getElem_map]
  rw [h1]
  have h2 : j < ((X[i]).enum.map (fun p =>
        if colMax X p.1 - colMin X p.1 = 0 then 0
        else (p.2 - colMin X p.1) / (colMax X p.1 - colMin X p.1))).length := by
    simpa using hj'
  rw [List.getD_eq_getElem _ _ h2, List.getElem_map, List.getElem_enum]
  rw [List.getD_eq_getElem _ _ hi, List.getD_eq_getElem _ _ hj']

/-- C6: `normalize` (the min-max scaler) preserves the shape of a
rectangular matrix, maps every cell into `[0, 1]` via
`(val - colMin) / (colMax - colMin)`, collapses every zero-range (constant)
column to all-`0`, and returns an empty matrix unchanged. -/
theorem minMaxScaler_spec (X : List (List ℚ)) (_hrect : Rectangular X) :
    MinMaxContract X := by
  refine ⟨?_, ?_, fun i j hi hj => minMaxScaler_cell X i j hi hj, ?_, ?_⟩
  · by_cases hX : X = []
    · subst hX; rfl
    · unfold minMaxScaler
      rw [if_neg hX, List.map_map]
      apply List.map_congr_left
      intro row _
      simp
  · intro i j hi hj
    rw [minMaxScaler_cell X i j hi hj]
    by_cases hr : colMax X j - colMin X j = 0
    · simp [hr]
    · rw [if_neg hr]
      have hvmem : cellOf X 0 i j ∈ columnVals 0 X j := by
        unfold cellOf columnVals
        rw [List.getD_eq_getElem _ _ hi]
        exact List.mem_map.mpr ⟨X[i], List.getElem_mem hi, rfl⟩
      have h1 : colMin X j ≤ cellOf X 0 i j := colMin_le hvmem
      have h2 : cellOf X 0 i j ≤ colMax X j := le_colMax hvmem
      have hlt : colMin X j < colMax X j :=
        lt_of_le_of_ne (h1.trans h2) (fun he => hr (sub_eq_zero.mpr he.symm))
      constructor
      · apply div_nonneg <;> linarith
      · rw [div_le_one (by linarith)]
        linarith
  · intro j c hconst i hi hj
    rw [minMaxScaler_cell X i j hi hj]
    have hne : X ≠ [] := fun h => by subst h; simp at hi
    have hall : ∀ v ∈ columnVals 0 X j, v = c := by
      intro v hv
      rcases List.mem_map.mp hv with ⟨row, hrow, rfl⟩
      exact hconst row hrow
    have h1 : colMin X j = c := hall _ (colMin_mem hne)
    have h2 : colMax X j = c := hall _ (colMax_mem hne)
    rw [if_pos (by rw [h1, h2]; ring)]
  · intro h; subst h; rfl

/-- Witness for `minMaxScaler_spec` at the rectangular matrix
`[[1, 2], [3, 2]]` (a spread column and a constant column). -/
theorem minMaxScaler_spec_witness :
    Rectangular ([[1, 2], [3, 2]] : List (List ℚ)) ∧
      MinMaxContract [[1, 2], [3, 2]] ∧
      minMaxScaler [[1, 2], [3, 2]] = [[0, 0], [1, 0]] :=
  ⟨by unfold Rectangular; decide, minMaxScaler_spec [[1, 2], [3, 2]] (by unfold Rectangular; decide),
    by with_unfolding_all rfl⟩

/-- The cell of `standardScaler` at an in-range position. -/
theorem standardScaler_cell (X : List (List ℝ)) (i j : ℕ) (hi : i < X.length)
    (hj : j < (X.getD i []).length) :
    cellOf (standardScaler X) 0 i j =
      (cellOf X 0 i j - colMean X j) / colStd X j := by
  have hX : X ≠ [] := by intro h; rw [h] at hi; simp at hi
  have hj' : j < (X[i]).length := by rwa [List.getD_eq_getElem _ _ hi] at hj
  unfold standardScaler cellOf
  rw [if_neg hX]
  have h1 : (X.map (fun row => row.enum.map
        (fun p => (p.2 - colMean X p.1) / colStd X p.1))).getD i []
      = (X[i]).enum.map (fun p => (p.2 - colMean X p.1) / colStd X p.1) := by
    rw [List.getD_eq_getElem _ _ (by simpa using hi), List.getElem_map]
  rw [h1]
  have h2 : j < ((X[i]).enum.map
      (fun p => (p.2 - colMean X p.1) / colStd X p.1)).length := by
    simpa using hj'
  rw [List.getD_eq_getElem _ _ h2, List.getElem_map, List.getElem_enum]
  rw [List.getD_eq_getElem _ _ hi, List.getD_eq_getElem _ _ hj']

theorem colVariance_nonneg (X : List (List ℝ)) (j : ℕ) : 0 ≤ colVariance X j := by
  unfold colVariance
  apply div_nonneg
  · apply List.sum_nonneg
    intro x hx
    rcases List.mem_map.mp hx with ⟨v, _, rfl⟩
    positivity
  · positivity

/-- The `|| 1` fallback: a zero variance yields a divisor of exactly `1`. -/
theorem colStd_eq_one {X : List (List ℝ)} {j : ℕ} (h : colVariance X j = 0) :
    colStd X j = 1 := by
  unfold colStd
  rw [h, Real.sqrt_zero, if_pos rfl]

theorem colMean_const {X : List (List ℝ)} {j : ℕ} {c : ℝ} (hX : X ≠ [])
    (hconst : ∀ row ∈ X, row.getD j 0 = c) : colMean X j = c := by
  have hrep : columnVals 0 X j = List.replicate X.length c := by
    have hlen : (columnVals 0 X j).length = X.length := by simp [columnVals]
    rw [← hlen]
    apply List.eq_replicate_of_mem
    intro v hv
    rcases List.mem_map.mp hv with ⟨row, hrow, rfl⟩
    exact hconst row hrow
  have hn : (X.length : ℝ) ≠ 0 :=
    Nat.cast_ne_zero.mpr (fun h => hX (List.length_eq_zero.mp h))
  unfold colMean
  rw [hrep, List.sum_replicate, List.length_replicate, nsmul_eq_mul]
  exact mul_div_cancel_left₀ c hn

theorem colVariance_const {X : List (List ℝ)} {j : ℕ} {c : ℝ} (hX : X ≠ [])
    (hconst : ∀ row ∈ X, row.getD j 0 = c) : colVariance X j = 0 := by
  unfold colVariance
  have hz : ((columnVals 0 X j).map (fun v => (v - colMean X j) ^ 2)).sum = 0 := by
    apply List.sum_eq_zero
    intro x hx
    rcases List.mem_map.mp hx with ⟨v, hv, rfl⟩
    rcases List.mem_map.mp hv with ⟨row, hrow, rfl⟩
    rw [hconst row hrow, colMean_const hX hconst]
    ring
  rw [hz, zero_div]

/-- C5: `standardize` preserves the shape of a rectangular matrix, computes
every cell as `(val - colMean) / colStd` with `colStd` substituting `1` for
a zero standard deviation, sends every constant column to all-`0`, and
returns an empty matrix unchanged. -/
theorem standardScaler_spec (X : List (List ℝ)) (_hrect : Rectangular X) :
    StandardContract X := by
  refine ⟨?_, fun i j hi hj => standardScaler_cell X i j hi hj,
    fun j h => colStd_eq_one h, ?_, ?_⟩
  · by_cases hX : X = []
    · subst hX; simp [standardScaler]
    · unfold standardScaler
      rw [if_neg hX, List.map_map]
      apply List.map_congr_left
      intro row _
      simp
  · intro j c hconst i hi hj
    rw [standardScaler_cell X i j hi hj]
    have hne : X ≠ [] := fun h => by subst h; simp at hi
    have hcell : cellOf X 0 i j = c := by
      unfold cellOf
      rw [List.getD_eq_getElem _ _ hi]
      exact hconst (X[i]) (List.getElem_mem hi)
    rw [hcell, colMean_const hne hconst,
      colStd_eq_one (colVariance_const hne hconst)]
    simp
  · intro h; subst h; simp [standardScaler]

/-- Witness for `standardScaler_spec` at the rectangular constant matrix
`[[2], [2]]`, whose single column standardizes to all-`0`. -/
theorem standardScaler_spec_witness :
    Rectangular ([[2], [2]] : List (List ℝ)) ∧ StandardContract [[2], [2]] ∧
      standardScaler [[2], [2]] = [[0], [0]] :=
  ⟨by unfold Rectangular; decide,
    standardScaler_spec [[2], [2]] (by unfold Rectangular; decide),
    by simp [standardScaler, colMean, colVariance, colStd, columnVals]⟩

theorem bump_length (m : List (List ℕ)) (a b : ℕ) : (bump m a b).length = m.length := by
  simp [bump]

theorem bump_row_length (m : List (List ℕ)) (a b i : ℕ) :
    ((bump m a b).getD i []).length = (m.getD i []).length := by
  unfold bump
  by_cases hi : i < m.length
  · by_cases hai : a = i
    · subst hai
      rw [List.getD_eq_getElem _ _ (by simpa using hi),
        List.getElem_set_self (by simpa using hi), List.getD_eq_getElem _ _ hi]
      simp
    · rw [List.getD_eq_getElem _ _ (by simpa using hi),
        List.getElem_set_ne hai (by simpa using hi), List.getD_eq_getElem _ _ hi]
  · have h1 : m.length ≤ i := Nat.le_of_not_lt hi
    rw [List.getD_eq_default _ _ (by simpa using h1), List.getD_eq_default _ _ h1]

/-- The single-cell effect of `matrix[a][b]++` on an in-range cell. -/
theorem bump_cell (m : List (List ℕ)) (a b i j : ℕ) (hi : i < m.length)
    (hj : j < (m.getD i []).length) :
    ((bump m a b).getD i []).getD j 0 =
      (m.getD i []).getD j 0 + (if a = i ∧ b = j then 1 else 0) := by
  unfold bump
  by_cases hai : a = i
  · subst hai
    have hi' : a < (m.set a ((m.getD a []).set b ((m.getD a []).getD b 0 + 1))).length := by
      simpa using hi
    have hrow : (m.set a ((m.getD a []).set b ((m.getD a []).getD b 0 + 1))).getD a []
        = (m.getD a []).set b ((m.getD a []).getD b 0 + 1) := by
      rw [List.getD_eq_getElem _ _ hi', List.getElem_set_self (by simpa using hi)]
    rw [hrow]
    by_cases hbj : b = j
    · subst hbj
      have hb' : b < ((m.getD a []).set b ((m.getD a []).getD b 0 + 1)).length := by
        simpa using hj
      rw [List.getD_eq_getElem _ _ hb', List.getElem_set_self (by simpa using hj),
        List.getD_eq_getElem _ _ hj]
      simp
    · have hj' : j < ((m.getD a []).set b ((m.getD a []).getD b 0 + 1)).length := by
        simpa using hj
      rw [List.getD_eq_getElem _ _ hj', List.getElem_set_ne hbj (by simpa using hj),
        List.getD_eq_getElem _ _ hj]
      simp [hbj]
  · have hi' : i < (m.set a ((m.getD a []).set b ((m.getD a []).getD b 0 + 1))).length := by
      simpa using hi
    have hrow : (m.set a ((m.getD a []).set b ((m.getD a []).getD b 0 + 1))).getD i []
        = m.getD i [] := by
      rw [List.getD_eq_getElem _ _ hi', List.getElem_set_ne hai (by simpa using hi),
        List.getD_eq_getElem _ _ hi]
    rw [hrow]
    simp [hai]

theorem foldl_bump_length {β : Type} (f g : β → ℕ) (ps : List β) :
    ∀ m : List (List ℕ), (ps.foldl (fun m q => bump m (f q) (g q)) m).length = m.length := by
  induction ps with
  | nil => intro m; rfl
  | cons q ps ih =>
    intro m
    simp only [List.foldl_cons]
    rw [ih, bump_length]

theorem foldl_bump_row_length {β : Type} (f g : β → ℕ) (ps : List β) :
    ∀ (m : List (List ℕ)) (i : ℕ),
      (((ps.foldl (fun m q => bump m (f q) (g q)) m)).getD i []).length =
        ((m.getD i []).length) := by
  induction ps with
  | nil => intro m i; rfl
  | cons q ps ih =>
    intro m i
    simp only [List.foldl_cons]
    rw [ih, bump_row_length]

/-- After folding the increments, a cell holds the number of index pairs
that target it. -/
theorem bump_foldl_cell (ps : List (ℕ × ℕ)) :
    ∀ (m : List (List ℕ)) (i j : ℕ), i < m.length → j < (m.getD i []).length →
      ((ps.foldl (fun m q => bump m q.1 q.2) m).getD i []).getD j 0 =
        (m.getD i []).getD j 0 + ps.count (i, j) := by
  induction ps with
  | nil => intro m i j _ _; simp
  | cons q ps ih =>
    intro m i j hi hj
    simp only [List.foldl_cons]
    rw [ih (bump m q.1 q.2) i j (by rw [bump_length]; exact hi)
      (by rw [bump_row_length]; exact hj)]
    rw [bump_cell m q.1 q.2 i j hi hj]
    simp only [List.count_cons, beq_iff_eq]
    by_cases hq : q = (i, j)
    · have h1 : q.1 = i ∧ q.2 = j := by rw [hq]; exact ⟨rfl, rfl⟩
      rw [if_pos h1, if_pos hq]
      omega
    · have h1 : ¬(q.1 = i ∧ q.2 = j) := fun hc => hq (Prod.ext hc.1 hc.2)
      rw [if_neg h1, if_neg hq]
      omega

/-- Mapping `indexOf` into a duplicate-free list inverts indexing. -/
theorem indexOf_eq_iff {L : List ℕ} {a i : ℕ} (hnd : L.Nodup)
    (ha : a ∈ L) (hi : i < L.length) :
    L.indexOf a = i ↔ a = L.getD i 0 := by
  rw [List.getD_eq_getElem _ _ hi]
  constructor
  · intro h
    have hlt := List.indexOf_lt_length.mpr ha
    subst h
    exact (List.getElem_indexOf hlt).symm
  · intro h
    have hlt := List.indexOf_lt_length.mpr ha
    have heq : L[L.indexOf a] = L[i] := by rw [List.getElem_indexOf hlt, h]
    exact (List.Nodup.getElem_inj_iff hnd).mp heq

/-- The confusion matrix is square over the label ordering. -/
theorem confusionMatrix_shape (yT yP : List ℕ) :
    (confusionMatrix yT yP).length = (confusionLabels yT yP).length ∧
      ∀ row ∈ confusionMatrix yT yP, row.length = (confusionLabels yT yP).length := by
  unfold confusionMatrix
  constructor
  · rw [foldl_bump_length]
    simp
  · intro row hrow
    rcases List.mem_iff_getElem.mp hrow with ⟨k, hk, hrowk⟩
    have hkL : k < (confusionLabels yT yP).length := by
      rw [foldl_bump_length] at hk
      simpa using hk
    have hgetD := foldl_bump_row_length
      (fun p : ℕ × ℕ => (confusionLabels yT yP).indexOf p.1)
      (fun p : ℕ × ℕ => (confusionLabels yT yP).indexOf p.2) (yT.zip yP)
      ((confusionLabels yT yP).map
        (fun _ => (confusionLabels yT yP).map (fun _ => 0))) k
    rw [← hrowk]
    have hres : ((yT.zip yP).foldl
        (fun m p => bump m ((confusionLabels yT yP).indexOf p.1)
          ((confusionLabels yT yP).indexOf p.2))
        ((confusionLabels yT yP).map
          (fun _ => (confusionLabels yT yP).map (fun _ => 0)))).getD k [] =
        ((yT.zip yP).foldl
        (fun m p => bump m ((confusionLabels yT yP).indexOf p.1)
          ((confusionLabels yT yP).indexOf p.2))
        ((confusionLabels yT yP).map
          (fun _ => (confusionLabels yT yP).map (fun _ => 0))))[k] :=
      List.getD_eq_getElem _ _ hk
    rw [← hres, hgetD, List.getD_eq_getElem _ _ (by simpa using hkL),
      List.getElem_map]
    simp

/-- Each confusion-matrix cell counts the aligned pairs whose true label is
class `i` and predicted label class `j` of the sorted label ordering. -/
theorem confusionMatrix_cell (yT yP : List ℕ) (i j : ℕ)
    (hi : i < (confusionLabels yT yP).length)
    (hj : j < (confusionLabels yT yP).length) :
    cellOf (confusionMatrix yT yP) 0 i j =
      (yT.zip yP).countP (fun p =>
        p.1 == (confusionLabels yT yP).getD i 0 &&
        p.2 == (confusionLabels yT yP).getD j 0) := by
  unfold confusionMatrix cellOf
  set L := confusionLabels yT yP with hL
  have hconv : (yT.zip yP).foldl
      (fun m p => bump m (L.indexOf p.1) (L.indexOf p.2))
      (L.map (fun _ => L.map (fun _ => 0))) =
      ((yT.zip yP).map (fun p => (L.indexOf p.1, L.indexOf p.2))).foldl
        (fun m q => bump m q.1 q.2) (L.map (fun _ => L.map (fun _ => 0))) := by
    rw [List.foldl_map]
  rw [hconv]
  have hishape : i < (L.map (fun _ => L.map (fun _ => (0:ℕ)))).length := by
    simpa using hi
  have hrowshape : j < ((L.map (fun _ => L.map (fun _ => (0:ℕ)))).getD i []).length := by
    rw [List.getD_eq_getElem _ _ hishape, List.getElem_map]
    simpa using hj
  rw [bump_foldl_cell _ _ i j hishape hrowshape]
  have hinit : ((L.map (fun _ => L.map (fun _ => (0:ℕ)))).getD i []).getD j 0 = 0 := by
    rw [List.getD_eq_getElem _ _ hishape, List.getElem_map]
    rw [List.getD_eq_getElem _ _ (by simpa using hj), List.getElem_map]
  rw [hinit, Nat.zero_add, List.count_eq_countP, List.countP_map]
  apply List.countP_congr
  intro p hp
  have hp1 : p.1 ∈ L := by
    rw [hL]
    exact mem_sortedDistinct.mpr (List.mem_append.mpr (Or.inl (List.of_mem_zip hp).1))
  have hp2 : p.2 ∈ L := by
    rw [hL]
    exact mem_sortedDistinct.mpr (List.mem_append.mpr (Or.inr (List.of_mem_zip hp).2))
  have hnd : L.Nodup := by rw [hL]; exact sortedDistinct_nodup _
  simp only [Function.comp_apply, beq_iff_eq, Prod.mk.injEq, Bool.and_eq_true]
  exact and_congr (indexOf_eq_iff hnd hp1 hi) (indexOf_eq_iff hnd hp2 hj)

/-- C8: `confusionMatrix([0,0,1,1], [0,1,1,0])` is `[[1,1],[1,1]]` over the
implied label ordering `[0, 1]` and `accuracy` on the same pair is `1/2`;
in general the matrix is square over the sorted distinct labels of both
vectors, cell `[i][j]` counts the aligned pairs with true label `labels[i]`
and predicted label `labels[j]`, and accuracy is the fraction of
index-aligned equal positions, `0` on empty input. -/
theorem evaluator_spec :
    confusionMatrix [0, 0, 1, 1] [0, 1, 1, 0] = [[1, 1], [1, 1]] ∧
    confusionLabels [0, 0, 1, 1] [0, 1, 1, 0] = [0, 1] ∧
    calculateAccuracy [0, 0, 1, 1] [0, 1, 1, 0] = 1 / 2 ∧
    (∀ yT yP : List ℕ, (confusionLabels yT yP).Sorted (· < ·) ∧
      ∀ a : ℕ, a ∈ confusionLabels yT yP ↔ a ∈ yT ∨ a ∈ yP) ∧
    (∀ yT yP : List ℕ,
      (confusionMatrix yT yP).length = (confusionLabels yT yP).length ∧
      ∀ row ∈ confusionMatrix yT yP, row.length = (confusionLabels yT yP).length) ∧
    (∀ (yT yP : List ℕ) (i j : ℕ), i < (confusionLabels yT yP).length →
      j < (confusionLabels yT yP).length →
      cellOf (confusionMatrix yT yP) 0 i j =
        (yT.zip yP).countP (fun p =>
          p.1 == (confusionLabels yT yP).getD i 0 &&
          p.2 == (confusionLabels yT yP).getD j 0)) ∧
    (∀ yT yP : List ℕ, yT ≠ [] →
      calculateAccuracy yT yP =
        ((yT.zip yP).countP (fun p => p.1 == p.2) : ℚ) / yT.length) ∧
    (∀ yP : List ℕ, calculateAccuracy [] yP = 0) := by
  refine ⟨by decide, by decide, by with_unfolding_all rfl, ?_, confusionMatrix_shape,
    confusionMatrix_cell, ?_, fun yP => rfl⟩
  · intro yT yP
    refine ⟨sortedDistinct_sorted_lt _, fun a => ?_⟩
    rw [confusionLabels, mem_sortedDistinct, List.mem_append]
  · intro yT yP hne
    unfold calculateAccuracy
    rw [if_neg (fun h => hne (List.length_eq_zero.mp h))]

/-- Witness for `evaluator_spec`: the general cell-count clause evaluated at
the claim's own instance, cell `[0][1]` of the 2×2 matrix. -/
theorem evaluator_spec_witness :
    0 < (confusionLabels [0, 0, 1, 1] [0, 1, 1, 0]).length ∧
    1 < (confusionLabels [0, 0, 1, 1] [0, 1, 1, 0]).length ∧
    cellOf (confusionMatrix [0, 0, 1, 1] [0, 1, 1, 0]) 0 0 1 =
      (([0, 0, 1, 1] : List ℕ).zip ([0, 1, 1, 0] : List ℕ)).countP (fun p =>
        p.1 == (confusionLabels [0, 0, 1, 1] [0, 1, 1, 0]).getD 0 0 &&
        p.2 == (confusionLabels [0, 0, 1, 1] [0, 1, 1, 0]).getD 1 0) :=
  ⟨by decide, by decide,
    evaluator_spec.2.2.2.2.2.1 [0, 0, 1, 1] [0, 1, 1, 0] 0 1 (by decide) (by decide)⟩
